import Mathlib

/-!
# Verification of the m-ld Iroha agreement-condition protocol

A shallow embedding of `src/lib/ConsensusCondition.js`: the
`ConsensusCondition.prove` / `ConsensusCondition.test` agreement protocol and
the `AffectedLoader` snapshot builder, together with models of the m-ld
utility functions the source calls (`array`, `isPropertyObject`,
`includesValue`, `updateSubject`) and of the JSON encode/decode layer used to
work around the Iroha value channel losing one level of string escaping.

JavaScript values are modelled by the inductive `Json` (numbers restricted to
integers; floating point is not modelled).  JS objects are association lists
in insertion order, JS `Set`s are duplicate-free lists in insertion order,
matching the deterministic iteration order the ECMAScript specification
gives both.
-/

namespace MeldIroha

/-- Model of a JSON / JavaScript value as enters the protocol: the delta and
ledger payloads.  Numbers are modelled as integers. -/
inductive Json where
  | null : Json
  | bool (b : Bool) : Json
  | num (n : Int) : Json
  | str (s : String) : Json
  | arr (elems : List Json) : Json
  | obj (fields : List (String × Json)) : Json

mutual

/-- Structural equality test for `Json`, used to build decidable equality
(the nested `List` positions keep `deriving` from applying). -/
def Json.beq : Json → Json → Bool
  | .null, .null => true
  | .bool a, .bool b => a == b
  | .num a, .num b => a == b
  | .str a, .str b => a == b
  | .arr a, .arr b => Json.beqList a b
  | .obj a, .obj b => Json.beqFields a b
  | _, _ => false

/-- Elementwise equality test for lists of `Json`. -/
def Json.beqList : List Json → List Json → Bool
  | [], [] => true
  | x :: xs, y :: ys => Json.beq x y && Json.beqList xs ys
  | _, _ => false

/-- Pairwise equality test for object field lists. -/
def Json.beqFields : List (String × Json) → List (String × Json) → Bool
  | [], [] => true
  | (k, v) :: xs, (l, w) :: ys => k == l && Json.beq v w && Json.beqFields xs ys
  | _, _ => false

end

mutual

theorem Json.beq_iff : ∀ a b : Json, Json.beq a b = true ↔ a = b
  | .null, .null => by simp [Json.beq]
  | .bool _, .bool _ => by simp [Json.beq]
  | .num _, .num _ => by simp [Json.beq]
  | .str _, .str _ => by simp [Json.beq]
  | .arr x, .arr y => by simp [Json.beq, Json.beqList_iff x y]
  | .obj x, .obj y => by simp [Json.beq, Json.beqFields_iff x y]
  | .null, .bool _ | .null, .num _ | .null, .str _ | .null, .arr _ | .null, .obj _
  | .bool _, .null | .bool _, .num _ | .bool _, .str _ | .bool _, .arr _ | .bool _, .obj _
  | .num _, .null | .num _, .bool _ | .num _, .str _ | .num _, .arr _ | .num _, .obj _
  | .str _, .null | .str _, .bool _ | .str _, .num _ | .str _, .arr _ | .str _, .obj _
  | .arr _, .null | .arr _, .bool _ | .arr _, .num _ | .arr _, .str _ | .arr _, .obj _
  | .obj _, .null | .obj _, .bool _ | .obj _, .num _ | .obj _, .str _ | .obj _, .arr _ => by
    simp [Json.beq]

theorem Json.beqList_iff : ∀ xs ys : List Json, Json.beqList xs ys = true ↔ xs = ys
  | [], [] => by simp [Json.beqList]
  | x :: xs, y :: ys => by simp [Json.beqList, Json.beq_iff x y, Json.beqList_iff xs ys]
  | [], _ :: _ => by simp [Json.beqList]
  | _ :: _, [] => by simp [Json.beqList]

theorem Json.beqFields_iff : ∀ xs ys : List (String × Json), Json.beqFields xs ys = true ↔ xs = ys
  | [], [] => by simp [Json.beqFields]
  | (k, v) :: xs, (l, w) :: ys => by
    simp [Json.beqFields, Json.beq_iff v w, Json.beqFields_iff xs ys, and_assoc]
  | [], _ :: _ => by simp [Json.beqFields]
  | _ :: _, [] => by simp [Json.beqFields]

end

instance : DecidableEq Json := fun a b =>
  decidable_of_iff (Json.beq a b = true) (Json.beq_iff a b)

/-! ## Graph subjects and deltas

A m-ld `GraphSubject` is a JS object with an `'@id'` key and further property
keys.  The embedding keeps the identifier apart from the property entries;
`Object.entries` on the JS object corresponds to the `'@id'` entry followed by
`props` in insertion order, and the source's `isPropertyObject` filter accepts
exactly the `props` entries (it rejects the `'@id'` and `'@context'` keys).
Property values are normalised to lists (a JS single value standing for the
one-element list). -/

/-- A graph subject: entity identifier plus property entries in insertion
order, each property holding its list of values. -/
structure Subject where
  id : String
  props : List (String × List Json)
deriving DecidableEq

/-- The first value list held for property `p`, or `[]` when the property is
absent (the m-ld convention identifies an absent property with an empty value
set).  `props` lists built by the code below never repeat a key. -/
def Subject.propValues (s : Subject) (p : String) : List Json :=
  match s.props.find? (fun pv => pv.1 == p) with
  | some pv => pv.2
  | none => []

/-- A `GraphUpdate` delta: the `'@delete'` and `'@insert'` arrays of graph
subjects. -/
structure GraphUpdate where
  delete : List Subject
  insert : List Subject
deriving DecidableEq

/-- Modelled from the spec: the m-ld `isPropertyObject(property, value)`
utility (not part of this repository's sources) accepts the entries of a
subject other than the `'@id'` and `'@context'` keywords. -/
def isPropertyObject (property : String) : Bool :=
  property != "@id" && property != "@context"

/-- Modelled from the spec: the m-ld `includesValue(subject, property, value)`
utility (not part of this repository's sources) answers whether the subject's
values for the property include the given value. -/
def includesValue (s : Subject) (p : String) (v : Json) : Bool :=
  v ∈ s.propValues p

/-- Modelled from the spec: the m-ld `array(value)` utility (not part of this
repository's sources) normalises a single value or a collection to an array,
dropping nulls. -/
def jsArray : Json → List Json
  | .null => []
  | .arr xs => xs.filter (fun v => v ≠ Json.null)
  | v => [v]

/-! ## The read-state handle

`state.get(id, ...properties)` describes the entity with exactly the named
properties, or is undefined when the store knows nothing of the entity. -/

/-- Modelled from the spec: a point-in-time store snapshot behind the
`MeldReadState` handle, giving for each known entity its property valuation. -/
def Store := String → Option (String → List Json)

/-- Modelled from the spec: `state.get(id, ...props)` returns the subject
described with exactly the requested properties (empty-valued ones omitted,
as an absent property has no description), or `none` for an unknown entity. -/
def Store.get (st : Store) (id : String) (props : List String) : Option Subject :=
  (st id).map fun f =>
    ⟨id, (props.map fun p => (p, f p)).filter fun pv => !pv.2.isEmpty⟩

/-! ## Applying the delta on top of fetched state -/

/-- Insertion into a duplicate-free list, keeping first-insertion order: the
model of `Set.prototype.add` and of first assignment to a JS object key. -/
def insertKey (ks : List String) (k : String) : List String :=
  if k ∈ ks then ks else ks ++ [k]

/-- All values the delta's given side holds for entity `id` at property `p`
(concatenated over every delta subject naming that entity). -/
def sideValues (side : List Subject) (id p : String) : List Json :=
  (side.filter fun s => s.id == id).foldr (fun s acc => s.propValues p ++ acc) []

/-- The property names the delta mentions for entity `id`, in order of first
appearance, `'@delete'` side first — the same order in which
`AffectedLoader.addProperties` collects them. -/
def mentionedProps (affected : GraphUpdate) (id : String) : List String :=
  ((affected.delete ++ affected.insert).filter fun s => s.id == id).foldl
    (fun ks s => (s.props.map Prod.fst).foldl insertKey ks) []

/-- One property's final value list: current values minus the delta's deleted
values, then the delta's inserted values appended (without duplicating a
surviving value). -/
def updateProperty (current deleted inserted : List Json) : List Json :=
  let kept := current.filter fun v => v ∉ deleted
  kept ++ inserted.filter fun v => v ∉ kept

/-- Modelled from the spec: the m-ld `updateSubject(subject, update)` utility
(not part of this repository's sources) applies the update's deletes and
inserts for the subject's entity on top of the subject's fetched values,
yielding the per-property value sets of the final state — every property the
update mentions for the entity is given its (possibly empty) final value
set. -/
def updateSubject (s : Subject) (affected : GraphUpdate) : Subject :=
  let own := (s.props.map Prod.fst).foldl insertKey []
  let keys := (mentionedProps affected s.id).foldl insertKey own
  ⟨s.id, keys.map fun p =>
    (p, updateProperty (s.propValues p)
      (sideValues affected.delete s.id p)
      (sideValues affected.insert s.id p))⟩

/-! ## AffectedLoader

`AffectedLoader`'s constructor collects, per affected entity, the set of
property names the delta mentions for it (`subjectPropertiesToLoad`, a JS
object of `Set`s, both iterated in insertion order); `load` then fetches
exactly those properties for each entity and overlays the delta. -/

/-- Adding one subject's property keys to the entry carrying its `'@id'`
(all of the subject's property entries pass `isPropertyObject`, the `'@id'`
key being held apart in the embedding). -/
def bumpEntry (s : Subject) (e : String × List String) : String × List String :=
  if e.1 == s.id then (e.1, (s.props.map Prod.fst).foldl insertKey e.2) else e

/-- One step of `AffectedLoader.addProperties`: ensure an entry for the
subject's `'@id'` exists (`??= new Set`), then add each of the subject's
property keys accepted by `isPropertyObject` to that entry. -/
def addSubjectToLoad (m : List (String × List String)) (s : Subject) :
    List (String × List String) :=
  (if m.any fun e => e.1 == s.id then m else m ++ [(s.id, [])]).map (bumpEntry s)

/-- The `subjectPropertiesToLoad` map built by `AffectedLoader`'s constructor:
`addProperties(affected['@delete'])` then `addProperties(affected['@insert'])`,
folded subject by subject. -/
def subjectPropertiesToLoad (affected : GraphUpdate) : List (String × List String) :=
  (affected.delete ++ affected.insert).foldl addSubjectToLoad []

/-- `AffectedLoader.load(state)`: for each collected entity, fetch exactly the
collected properties (`state.get(id, ...props)`), fall back to the placeholder
`{'@id': id}` for an unknown entity, and apply the delta on top
(`updateSubject`).  `Promise.all` keeps the entry order. -/
def AffectedLoader.load (affected : GraphUpdate) (st : Store) : List Subject :=
  (subjectPropertiesToLoad affected).map fun e =>
    updateSubject ((Store.get st e.1 e.2).getD ⟨e.1, []⟩) affected

/-! ## The consensus condition -/

/-- `PROOF_KEY_PREFIX` from the source. -/
def PROOF_KEY_PREFIX : String := "pk_"

/-- Model of JS `String.prototype.startsWith`. -/
def strStartsWith (s pre : String) : Bool :=
  pre.data.isPrefixOf s.data

/-- The `ProofValue` committed to the ledger by `prove`: the principal id and
the agreed final state. -/
structure ProofValue where
  pid : String
  state : List Subject
deriving DecidableEq

/-- The observable outcome of `ConsensusCondition.prove`: its return value
(`none` standing for the JS `false`), the ledger writes it performed
(`setAccountDetail` calls, key and committed value), and the read-state
fetches it performed (entity id and requested properties). -/
structure ProveOutcome where
  result : Option String
  ledgerWrites : List (String × ProofValue)
  stateReads : List (String × List String)
deriving DecidableEq

/-- `ConsensusCondition.prove(state, affected, principalRef)`.  The fresh
randomness (`crypto.randomBytes(16).toString('hex')`) enters as the
`randomHex` argument. -/
def ConsensusCondition.prove (st : Store) (affected : GraphUpdate)
    (principalRef : Option String) (randomHex : String) : ProveOutcome :=
  match principalRef with
  | none => ⟨none, [], []⟩
  | some pid =>
    let provedState := AffectedLoader.load affected st
    let proofKey := PROOF_KEY_PREFIX ++ randomHex
    ⟨some proofKey, [(proofKey, ⟨pid, provedState⟩)], subjectPropertiesToLoad affected⟩

/-- The result of `ConsensusCondition.test`: JS `true` is `pass`, a reason
string is `fail`. -/
inductive TestResult where
  | pass : TestResult
  | fail (reason : String) : TestResult
deriving DecidableEq

/-- The observable outcome of `ConsensusCondition.test`: its result, the
ledger queries it performed (`getAccountDetail` keys) and the read-state
fetches it performed. -/
structure TestOutcome where
  result : TestResult
  ledgerReads : List String
  stateReads : List (String × List String)
deriving DecidableEq

/-- The proof-key scan in `test`:
`array(proof).find(v => typeof v == 'string' && v.startsWith(PROOF_KEY_PREFIX))`. -/
def findProofKey (proof : Json) : Option String :=
  match (jsArray proof).find? fun v =>
      match v with
      | .str s => strStartsWith s PROOF_KEY_PREFIX
      | _ => false with
  | some (.str s) => some s
  | _ => none

/-- The `find` inside `test`'s comparison loop: the first committed subject
with the entity's `'@id'` whose values for the property include the value. -/
def findMatchingProved (provedState : List Subject) (id p : String) (v : Json) :
    Option Subject :=
  provedState.find? fun ps => ps.id == id && includesValue ps p v

/-- `test`'s comparison loop over the locally derived state: every value of
every property entry of every local subject must be found in the committed
state (the per-value reading of `includesValue`, as the spec describes the
loop). -/
def stateMatches (provedState actualState : List Subject) : Bool :=
  actualState.all fun subject =>
    subject.props.all fun pv =>
      pv.2.all fun v => (findMatchingProved provedState subject.id pv.1 v).isSome

/-- `ConsensusCondition.test(state, affected, proof, principalRef)`.  The
ledger is presented at `ProofValue` granularity (key to committed value);
the string encoding and decoding between `setAccountDetail` and
`getAccountDetail` is treated separately by the serialization layer below. -/
def ConsensusCondition.test (st : Store) (affected : GraphUpdate) (proof : Json)
    (principalRef : Option String) (ledger : String → Option ProofValue) : TestOutcome :=
  match principalRef with
  | none => ⟨.fail "No principal in update", [], []⟩
  | some pid =>
    match findProofKey proof with
    | none => ⟨.fail "No proof key in update", [], []⟩
    | some proofKey =>
      match ledger proofKey with
      | none => ⟨.fail "No proof in ledger", [proofKey], []⟩
      | some proved =>
        if proved.pid != pid then
          ⟨.fail "Proof principal does not match update principal", [proofKey], []⟩
        else
          let actualState := AffectedLoader.load affected st
          if stateMatches proved.state actualState then
            ⟨.pass, [proofKey], subjectPropertiesToLoad affected⟩
          else
            ⟨.fail "Proof does not match update", [proofKey], subjectPropertiesToLoad affected⟩

/-! ## Derived descriptions of the loader -/

/-- The affected entity identifiers in order of first appearance, delete side
first — the iteration order of `subjectPropertiesToLoad`'s keys. -/
def affectedIds (affected : GraphUpdate) : List String :=
  (affected.delete ++ affected.insert).foldl (fun ks s => insertKey ks s.id) []

/-- The subject `load` produces for one affected entity. -/
def loadSubject (affected : GraphUpdate) (st : Store) (id : String) : Subject :=
  updateSubject ((Store.get st id (mentionedProps affected id)).getD ⟨id, []⟩) affected

/-! ### `insertKey` -/

theorem mem_insertKey {ks : List String} {k k' : String} :
    k' ∈ insertKey ks k ↔ k' ∈ ks ∨ k' = k := by
  unfold insertKey
  split
  · next h =>
    constructor
    · exact Or.inl
    · rintro (h' | rfl)
      · exact h'
      · exact h
  · simp [or_comm]

theorem nodup_insertKey {ks : List String} (h : ks.Nodup) (k : String) :
    (insertKey ks k).Nodup := by
  unfold insertKey
  split
  · exact h
  · next hk => simpa [List.nodup_append] using ⟨h, fun hmem => hk hmem⟩

theorem mem_foldl_insertKey {l : List String} {acc : List String} {k : String} :
    k ∈ l.foldl insertKey acc ↔ k ∈ acc ∨ k ∈ l := by
  induction l generalizing acc with
  | nil => simp
  | cons x xs ih =>
    simp only [List.foldl_cons, ih, mem_insertKey, List.mem_cons]
    tauto

theorem nodup_foldl_insertKey {l : List String} {acc : List String} (h : acc.Nodup) :
    (l.foldl insertKey acc).Nodup := by
  induction l generalizing acc with
  | nil => exact h
  | cons x xs ih => exact ih (nodup_insertKey h x)

theorem mem_foldl_subject_insertKey {l : List Subject} {acc : List String} {k : String}
    (f : Subject → List String) :
    k ∈ l.foldl (fun ks s => (f s).foldl insertKey ks) acc ↔ k ∈ acc ∨ ∃ s ∈ l, k ∈ f s := by
  induction l generalizing acc with
  | nil => simp
  | cons x xs ih =>
    simp only [List.foldl_cons, ih, mem_foldl_insertKey, List.mem_cons]
    constructor
    · rintro ((h | h) | ⟨s, hs, hk⟩)
      · exact Or.inl h
      · exact Or.inr ⟨x, Or.inl rfl, h⟩
      · exact Or.inr ⟨s, Or.inr hs, hk⟩
    · rintro (h | ⟨s, (rfl | hs), hk⟩)
      · exact Or.inl (Or.inl h)
      · exact Or.inl (Or.inr hk)
      · exact Or.inr ⟨s, hs, hk⟩

theorem nodup_foldl_subject_insertKey {l : List Subject} {acc : List String}
    (f : Subject → List String) (h : acc.Nodup) :
    (l.foldl (fun ks s => (f s).foldl insertKey ks) acc).Nodup := by
  induction l generalizing acc with
  | nil => exact h
  | cons x xs ih => exact ih (nodup_foldl_insertKey h)

theorem nodup_affectedIds (affected : GraphUpdate) : (affectedIds affected).Nodup := by
  unfold affectedIds
  generalize (affected.delete ++ affected.insert) = l
  have : ∀ (l : List Subject) (acc : List String), acc.Nodup →
      (l.foldl (fun ks s => insertKey ks s.id) acc).Nodup := by
    intro l
    induction l with
    | nil => exact fun _ h => h
    | cons x xs ih => exact fun acc h => ih _ (nodup_insertKey h x.id)
  exact this l [] List.nodup_nil

theorem mem_affectedIds {affected : GraphUpdate} {id : String} :
    id ∈ affectedIds affected ↔
      ∃ s ∈ affected.delete ++ affected.insert, s.id = id := by
  unfold affectedIds
  generalize (affected.delete ++ affected.insert) = l
  have : ∀ (l : List Subject) (acc : List String),
      (id ∈ l.foldl (fun ks s => insertKey ks s.id) acc ↔
        id ∈ acc ∨ ∃ s ∈ l, s.id = id) := by
    intro l
    induction l with
    | nil => simp
    | cons x xs ih =>
      intro acc
      simp only [List.foldl_cons, ih, mem_insertKey, List.mem_cons]
      constructor
      · rintro ((h | rfl) | ⟨s, hs, rfl⟩)
        · exact Or.inl h
        · exact Or.inr ⟨x, Or.inl rfl, rfl⟩
        · exact Or.inr ⟨s, Or.inr hs, rfl⟩
      · rintro (h | ⟨s, (rfl | hs), rfl⟩)
        · exact Or.inl (Or.inl h)
        · exact Or.inl (Or.inr rfl)
        · exact Or.inr ⟨s, hs, rfl⟩
  simpa using this l []

theorem nodup_mentionedProps (affected : GraphUpdate) (id : String) :
    (mentionedProps affected id).Nodup :=
  nodup_foldl_subject_insertKey _ List.nodup_nil

theorem mem_mentionedProps {affected : GraphUpdate} {id p : String} :
    p ∈ mentionedProps affected id ↔
      ∃ s ∈ affected.delete ++ affected.insert, s.id = id ∧ p ∈ s.props.map Prod.fst := by
  unfold mentionedProps
  rw [mem_foldl_subject_insertKey (fun s => s.props.map Prod.fst)]
  simp only [List.mem_filter, List.mem_nil_iff, false_or, beq_iff_eq]
  constructor
  · rintro ⟨s, ⟨hs, rfl⟩, hp⟩
    exact ⟨s, hs, rfl, hp⟩
  · rintro ⟨s, hs, rfl, hp⟩
    exact ⟨s, ⟨hs, rfl⟩, hp⟩

/-! ### Characterising `subjectPropertiesToLoad` -/

/-- The value the map `m` holds at key `id` (`[]` when absent: first entry
wins, though the maps built here never repeat a key). -/
def lookupVal : List (String × List String) → String → List String
  | [], _ => []
  | e :: m, id => if e.1 = id then e.2 else lookupVal m id

theorem any_key_iff {m : List (String × List String)} {k : String} :
    (m.any fun e => e.1 == k) = true ↔ k ∈ m.map Prod.fst := by
  rw [List.any_eq_true]
  constructor
  · rintro ⟨e, he, hk⟩
    exact List.mem_map.mpr ⟨e, he, by simpa using hk⟩
  · intro hk
    obtain ⟨e, he, hk⟩ := List.mem_map.mp hk
    exact ⟨e, he, by simp [hk]⟩

theorem insertKey_of_mem {ks : List String} {k : String} (h : k ∈ ks) :
    insertKey ks k = ks := by
  simp [insertKey, h]

theorem insertKey_of_not_mem {ks : List String} {k : String} (h : k ∉ ks) :
    insertKey ks k = ks ++ [k] := by
  simp [insertKey, h]

theorem bumpEntry_fst (s : Subject) (e : String × List String) :
    (bumpEntry s e).1 = e.1 := by
  unfold bumpEntry
  split <;> rfl

theorem lookupVal_append (m m' : List (String × List String)) (id : String) :
    lookupVal (m ++ m') id =
      if id ∈ m.map Prod.fst then lookupVal m id else lookupVal m' id := by
  induction m with
  | nil => simp [lookupVal]
  | cons e m ih =>
    by_cases h : e.1 = id
    · simp [lookupVal, h]
    · have h' : ¬ id = e.1 := fun he => h he.symm
      by_cases hm : id ∈ m.map Prod.fst <;>
        simp [lookupVal, h, h', hm, ih]

theorem lookupVal_of_not_mem {m : List (String × List String)} {id : String}
    (h : id ∉ m.map Prod.fst) : lookupVal m id = [] := by
  induction m with
  | nil => rfl
  | cons e m ih =>
    simp only [List.map_cons, List.mem_cons, not_or] at h
    have hne : ¬ e.1 = id := fun he => h.1 he.symm
    simp only [lookupVal, if_neg hne]
    exact ih h.2

theorem lookupVal_mapBump (s : Subject) (m : List (String × List String)) (id : String) :
    lookupVal (m.map (bumpEntry s)) id =
      if s.id = id ∧ id ∈ m.map Prod.fst then
        (s.props.map Prod.fst).foldl insertKey (lookupVal m id)
      else lookupVal m id := by
  induction m with
  | nil => simp [lookupVal]
  | cons e m ih =>
    by_cases h : e.1 = id
    · by_cases hs : s.id = id
      · simp [lookupVal, bumpEntry, bumpEntry_fst, h, hs, h.trans hs.symm]
      · have hes : ¬ e.1 = s.id := fun he => hs (he.symm.trans h)
        have hse : ¬ id = s.id := fun he => hs he.symm
        simp [lookupVal, bumpEntry, bumpEntry_fst, h, hs, hes, hse]
    · have h' : ¬ id = e.1 := fun he => h he.symm
      by_cases hs : s.id = id <;> by_cases hm : id ∈ m.map Prod.fst <;>
        simp [lookupVal, bumpEntry_fst, h, h', hs, hm, ih]

theorem keys_mapBump (s : Subject) (m : List (String × List String)) :
    (m.map (bumpEntry s)).map Prod.fst = m.map Prod.fst := by
  rw [List.map_map]
  apply List.map_congr_left
  intro e _
  exact bumpEntry_fst s e

theorem keys_addSubjectToLoad (m : List (String × List String)) (s : Subject) :
    (addSubjectToLoad m s).map Prod.fst = insertKey (m.map Prod.fst) s.id := by
  unfold addSubjectToLoad
  by_cases hmem : s.id ∈ m.map Prod.fst
  · rw [if_pos (any_key_iff.mpr hmem), keys_mapBump, insertKey_of_mem hmem]
  · rw [if_neg (fun h => hmem (any_key_iff.mp h)), keys_mapBump, List.map_append,
      insertKey_of_not_mem hmem]
    rfl

theorem lookupVal_addSubjectToLoad (m : List (String × List String)) (s : Subject)
    (id : String) :
    lookupVal (addSubjectToLoad m s) id =
      if s.id = id then (s.props.map Prod.fst).foldl insertKey (lookupVal m id)
      else lookupVal m id := by
  unfold addSubjectToLoad
  by_cases hmem : s.id ∈ m.map Prod.fst
  · rw [if_pos (any_key_iff.mpr hmem), lookupVal_mapBump]
    by_cases hs : s.id = id
    · subst hs
      simp [hmem]
    · simp [hs]
  · rw [if_neg (fun h => hmem (any_key_iff.mp h)), List.map_append, lookupVal_append,
      keys_mapBump, lookupVal_mapBump]
    by_cases hs : s.id = id
    · subst hs
      rw [if_neg hmem, lookupVal_of_not_mem hmem]
      simp [bumpEntry, lookupVal]
    · by_cases hid : id ∈ m.map Prod.fst
      · have hc : ¬ (s.id = id ∧ id ∈ m.map Prod.fst) := fun h => hs h.1
        rw [if_pos hid, if_neg hc, if_neg hs]
      · rw [if_neg hid, if_neg hs, lookupVal_of_not_mem hid]
        simp [bumpEntry, lookupVal, hs]

theorem keys_foldl_addSubjectToLoad (l : List Subject) (m : List (String × List String)) :
    (l.foldl addSubjectToLoad m).map Prod.fst =
      l.foldl (fun ks s => insertKey ks s.id) (m.map Prod.fst) := by
  induction l generalizing m with
  | nil => rfl
  | cons s l ih => rw [List.foldl_cons, ih, keys_addSubjectToLoad, List.foldl_cons]

theorem keys_subjectPropertiesToLoad (affected : GraphUpdate) :
    (subjectPropertiesToLoad affected).map Prod.fst = affectedIds affected := by
  unfold subjectPropertiesToLoad affectedIds
  exact keys_foldl_addSubjectToLoad _ []

theorem lookupVal_foldl_addSubjectToLoad (l : List Subject)
    (m : List (String × List String)) (id : String) :
    lookupVal (l.foldl addSubjectToLoad m) id =
      (l.filter fun s => s.id == id).foldl
        (fun ks s => (s.props.map Prod.fst).foldl insertKey ks) (lookupVal m id) := by
  induction l generalizing m with
  | nil => rfl
  | cons s l ih =>
    rw [List.foldl_cons, ih, lookupVal_addSubjectToLoad]
    by_cases h : s.id = id
    · rw [if_pos h]
      simp [List.filter_cons, h]
    · rw [if_neg h]
      simp [List.filter_cons, h]

theorem lookupVal_subjectPropertiesToLoad (affected : GraphUpdate) (id : String) :
    lookupVal (subjectPropertiesToLoad affected) id = mentionedProps affected id := by
  unfold subjectPropertiesToLoad mentionedProps
  rw [lookupVal_foldl_addSubjectToLoad]
  rfl

theorem assoc_eq_map_keys {β : Type} (m : List (String × β)) (g : String → β)
    (h : ∀ e ∈ m, e.2 = g e.1) : m = (m.map Prod.fst).map fun k => (k, g k) := by
  induction m with
  | nil => rfl
  | cons e m ih =>
    rw [List.map_cons, List.map_cons, ← ih fun x hx => h x (List.mem_cons.mpr (Or.inr hx))]
    have he : e.2 = g e.1 := h e (List.mem_cons.mpr (Or.inl rfl))
    cases e
    simp only at he
    rw [he]

theorem lookupVal_of_mem {m : List (String × List String)}
    (hnd : (m.map Prod.fst).Nodup) {e : String × List String} (he : e ∈ m) :
    lookupVal m e.1 = e.2 := by
  induction m with
  | nil => cases he
  | cons x m ih =>
    rw [List.map_cons, List.nodup_cons] at hnd
    rcases List.mem_cons.mp he with rfl | he'
    · simp [lookupVal]
    · have hne : ¬ x.1 = e.1 := fun hx =>
        hnd.1 (hx ▸ List.mem_map.mpr ⟨e, he', rfl⟩)
      simp only [lookupVal, if_neg hne]
      exact ih hnd.2 he'

/-- `subjectPropertiesToLoad` holds exactly the affected entities in first-
appearance order, each mapped to the property names the delta mentions for
it. -/
theorem subjectPropertiesToLoad_eq (affected : GraphUpdate) :
    subjectPropertiesToLoad affected =
      (affectedIds affected).map fun id => (id, mentionedProps affected id) := by
  have hk := keys_subjectPropertiesToLoad affected
  have hnd : ((subjectPropertiesToLoad affected).map Prod.fst).Nodup := by
    rw [hk]
    exact nodup_affectedIds affected
  have hstep : subjectPropertiesToLoad affected =
      ((subjectPropertiesToLoad affected).map Prod.fst).map
        fun id => (id, mentionedProps affected id) := by
    apply assoc_eq_map_keys
    intro e he
    rw [← lookupVal_subjectPropertiesToLoad, lookupVal_of_mem hnd he]
  rw [hstep, hk]

/-- `load` yields exactly one subject per affected entity, in order. -/
theorem load_eq (affected : GraphUpdate) (st : Store) :
    AffectedLoader.load affected st =
      (affectedIds affected).map (loadSubject affected st) := by
  unfold AffectedLoader.load loadSubject
  rw [subjectPropertiesToLoad_eq, List.map_map]
  rfl

/-! ### Shape of `updateSubject` results -/

/-- The property keys of an updated subject: its own keys (deduplicated,
insertion order) then the delta-mentioned keys not already present. -/
def subjectKeys (s : Subject) (a : GraphUpdate) : List String :=
  (mentionedProps a s.id).foldl insertKey ((s.props.map Prod.fst).foldl insertKey [])

/-- The final value list of one property of an updated subject. -/
def finalValues (s : Subject) (a : GraphUpdate) (p : String) : List Json :=
  updateProperty (s.propValues p) (sideValues a.delete s.id p) (sideValues a.insert s.id p)

theorem updateSubject_eq (s : Subject) (a : GraphUpdate) :
    updateSubject s a = ⟨s.id, (subjectKeys s a).map fun p => (p, finalValues s a p)⟩ :=
  rfl

theorem mem_subjectKeys {s : Subject} {a : GraphUpdate} {p : String} :
    p ∈ subjectKeys s a ↔ p ∈ s.props.map Prod.fst ∨ p ∈ mentionedProps a s.id := by
  unfold subjectKeys
  rw [mem_foldl_insertKey, mem_foldl_insertKey]
  simp [or_comm]

theorem nodup_subjectKeys (s : Subject) (a : GraphUpdate) : (subjectKeys s a).Nodup :=
  nodup_foldl_insertKey (nodup_foldl_insertKey List.nodup_nil)

theorem find?_key_mapShape (K : List String) (F : String → List Json) (p : String) :
    (K.map fun k => (k, F k)).find? (fun pv => pv.1 == p) =
      if p ∈ K then some (p, F p) else none := by
  induction K with
  | nil => simp
  | cons k K ih =>
    by_cases h : k = p
    · subst h
      rw [List.map_cons, List.find?_cons_of_pos _ (by simp)]
      simp
    · rw [List.map_cons, List.find?_cons_of_neg _ (by simpa using h), ih]
      by_cases hm : p ∈ K
      · rw [if_pos hm, if_pos (List.mem_cons.mpr (Or.inr hm))]
      · rw [if_neg hm, if_neg]
        intro hmem
        rcases List.mem_cons.mp hmem with rfl | hK
        · exact h rfl
        · exact hm hK

theorem propValues_mapShape (id : String) (K : List String) (F : String → List Json)
    (p : String) :
    Subject.propValues ⟨id, K.map fun k => (k, F k)⟩ p = if p ∈ K then F p else [] := by
  show (match (K.map fun k => (k, F k)).find? (fun pv => pv.1 == p) with
    | some pv => pv.2
    | none => []) = if p ∈ K then F p else []
  rw [find?_key_mapShape]
  by_cases hm : p ∈ K <;> simp [hm]

/-- The values an updated subject holds at `p`: the final values when `p` is
one of its keys, nothing otherwise. -/
theorem propValues_updateSubject (s : Subject) (a : GraphUpdate) (p : String) :
    (updateSubject s a).propValues p =
      if p ∈ subjectKeys s a then finalValues s a p else [] := by
  rw [updateSubject_eq]
  exact propValues_mapShape s.id (subjectKeys s a) (finalValues s a) p

theorem propValues_of_mem_props_updateSubject {b : Subject} {a : GraphUpdate}
    {p : String} {vs : List Json} (h : (p, vs) ∈ (updateSubject b a).props) :
    (updateSubject b a).propValues p = vs := by
  rw [updateSubject_eq] at h
  obtain ⟨k, hk, heq⟩ := List.mem_map.mp h
  obtain ⟨rfl, rfl⟩ : k = p ∧ finalValues b a k = vs := by
    cases heq
    exact ⟨rfl, rfl⟩
  rw [propValues_updateSubject, if_pos hk]

theorem loadSubject_id (affected : GraphUpdate) (st : Store) (id : String) :
    (loadSubject affected st id).id = id := by
  show (((Store.get st id (mentionedProps affected id)).getD ⟨id, []⟩)).id = id
  unfold Store.get
  cases st id <;> rfl

/-- Every property key fetched for an entity is one of the requested
properties. -/
theorem base_props_sub {st : Store} {id : String} {props : List String} :
    ∀ p ∈ (((Store.get st id props).getD ⟨id, []⟩)).props.map Prod.fst, p ∈ props := by
  unfold Store.get
  cases hst : st id with
  | none => simp
  | some f =>
    intro p hp
    simp only [Option.map_some', Option.getD_some] at hp
    obtain ⟨pv, hpv, rfl⟩ := List.mem_map.mp hp
    obtain ⟨q, hq, rfl⟩ := List.mem_map.mp (List.mem_of_mem_filter hpv)
    exact hq

/-! ### The comparison loop -/

/-- The spec's reading of `test`'s comparison: every (entity, property,
value) triple of the locally derived state occurs in the committed state. -/
def TripleSubset (proved actual : List Subject) : Prop :=
  ∀ s ∈ actual, ∀ pv ∈ s.props, ∀ v ∈ pv.2,
    ∃ ps ∈ proved, ps.id = s.id ∧ v ∈ ps.propValues pv.1

theorem stateMatches_iff (proved actual : List Subject) :
    stateMatches proved actual = true ↔ TripleSubset proved actual := by
  unfold stateMatches TripleSubset findMatchingProved includesValue
  simp only [List.all_eq_true, List.find?_isSome, Bool.and_eq_true, beq_iff_eq,
    decide_eq_true_eq]

/-- The locally derived state always matches itself: reflexivity of the
comparison, the heart of the prove-then-test round trip. -/
theorem stateMatches_load_self (a : GraphUpdate) (st : Store) :
    stateMatches (AffectedLoader.load a st) (AffectedLoader.load a st) = true := by
  rw [stateMatches_iff]
  intro s hs pv hpv v hv
  refine ⟨s, hs, rfl, ?_⟩
  rw [load_eq] at hs
  obtain ⟨id, _, rfl⟩ := List.mem_map.mp hs
  have : (loadSubject a st id).propValues pv.1 = pv.2 :=
    propValues_of_mem_props_updateSubject hpv
  rw [this]
  exact hv

/-! ### The proof key -/

theorem strStartsWith_append (pre r : String) : strStartsWith (pre ++ r) pre = true := by
  unfold strStartsWith
  rw [String.data_append, List.isPrefixOf_iff_prefix]
  exact List.prefix_append _ _

theorem findProofKey_str {token : String}
    (h : strStartsWith token PROOF_KEY_PREFIX = true) :
    findProofKey (Json.str token) = some token := by
  unfold findProofKey jsArray
  simp [h]

theorem map_fst_mapShape (K : List String) (F : String → List Json) :
    ((K.map fun k => (k, F k)).map Prod.fst) = K := by
  induction K with
  | nil => rfl
  | cons k K ih => simp [ih]

/-- The subject fetched (or placeholder) for one affected entity. -/
def baseSubject (affected : GraphUpdate) (st : Store) (id : String) : Subject :=
  (Store.get st id (mentionedProps affected id)).getD ⟨id, []⟩

theorem baseSubject_id (affected : GraphUpdate) (st : Store) (id : String) :
    (baseSubject affected st id).id = id := by
  unfold baseSubject Store.get
  cases st id <;> rfl

theorem loadSubject_props (affected : GraphUpdate) (st : Store) (id : String) :
    (loadSubject affected st id).props =
      (subjectKeys (baseSubject affected st id) affected).map fun p =>
        (p, finalValues (baseSubject affected st id) affected p) := rfl

/-- Two stores presenting the same point-in-time snapshot: the same entities
are known, with the same values at every property. -/
def StoreEquiv (st1 st2 : Store) : Prop :=
  ∀ id, (st1 id = none ∧ st2 id = none) ∨
    ∃ f g, st1 id = some f ∧ st2 id = some g ∧ ∀ p, f p = g p

/-! ## Claim theorems -/

/-- C7: for every delta and read-state, `prove` called without a principal
returns the negative result (the JS `false`, modelled as `none`) rather than
throwing, performs no ledger write and no state read. -/
theorem prove_null_principal (st : Store) (affected : GraphUpdate) (randomHex : String) :
    ConsensusCondition.prove st affected none randomHex =
      ⟨none, [], []⟩ := rfl

/-- C3: for distinct principal identifiers `A ≠ B`, `test` supplied with
principal `B` against a ledger commitment whose `pid` is `A` fails with
"Proof principal does not match update principal", performing no state read
(the comparison is never reached), for every store and delta. -/
theorem test_principal_mismatch (st : Store) (affected : GraphUpdate) (proof : Json)
    (ledger : String → Option ProofValue) (proofKey : String) (proved : ProofValue)
    (A B : String) (hAB : A ≠ B)
    (hfind : findProofKey proof = some proofKey)
    (hledger : ledger proofKey = some proved)
    (hpid : proved.pid = A) :
    ConsensusCondition.test st affected proof (some B) ledger =
      ⟨.fail "Proof principal does not match update principal", [proofKey], []⟩ := by
  have hne : (proved.pid != B) = true := by
    rw [bne_iff_ne, hpid]
    exact hAB
  simp only [ConsensusCondition.test, hfind, hledger, hne, if_true]

theorem test_principal_mismatch_witness :
    ConsensusCondition.test (fun _ => none) ⟨[], []⟩ (Json.str "pk_x") (some "B")
      (fun k => if k = "pk_x" then some ⟨"A", []⟩ else none) =
      ⟨.fail "Proof principal does not match update principal", ["pk_x"], []⟩ :=
  test_principal_mismatch (fun _ => none) ⟨[], []⟩ (Json.str "pk_x")
    (fun k => if k = "pk_x" then some ⟨"A", []⟩ else none) "pk_x" ⟨"A", []⟩
    "A" "B" (by decide) (by decide) (by decide) rfl

/-- C1: if `prove` returns a token, having committed a value under it, and
the ledger query for that token returns exactly the committed value, then
`test` with the same delta, read-state and principal passes. -/
theorem prove_then_test (st : Store) (affected : GraphUpdate) (pid : String)
    (randomHex : String) (ledger : String → Option ProofValue) (token : String)
    (pv : ProofValue)
    (hres : (ConsensusCondition.prove st affected (some pid) randomHex).result = some token)
    (hwrite : (ConsensusCondition.prove st affected (some pid) randomHex).ledgerWrites =
      [(token, pv)])
    (hledger : ledger token = some pv) :
    (ConsensusCondition.test st affected (Json.str token) (some pid) ledger).result =
      TestResult.pass := by
  have htok : PROOF_KEY_PREFIX ++ randomHex = token := by
    simpa [ConsensusCondition.prove] using hres
  have hpv : pv = ⟨pid, AffectedLoader.load affected st⟩ := by
    simp only [ConsensusCondition.prove] at hwrite
    have := (List.cons.injEq _ _ _ _).mp hwrite
    exact ((Prod.mk.injEq _ _ _ _).mp this.1).2.symm
  subst hpv
  simp only [ConsensusCondition.test,
    findProofKey_str (htok ▸ strStartsWith_append PROOF_KEY_PREFIX randomHex),
    hledger, bne_self_eq_false, Bool.false_eq_true, if_false,
    stateMatches_load_self affected st, if_true]

theorem prove_then_test_witness :
    (ConsensusCondition.test (fun _ => none) ⟨[], [⟨"fred", [("name", [Json.str "Fred"])]⟩]⟩
      (Json.str "pk_00") (some "alice")
      (fun k => if k = "pk_00" then
        some ⟨"alice", [⟨"fred", [("name", [Json.str "Fred"])]⟩]⟩ else none)).result =
      TestResult.pass :=
  prove_then_test (fun _ => none) ⟨[], [⟨"fred", [("name", [Json.str "Fred"])]⟩]⟩
    "alice" "00" _ "pk_00" ⟨"alice", [⟨"fred", [("name", [Json.str "Fred"])]⟩]⟩
    (by decide) (by decide) (by decide)

/-- C8: `test`'s token extraction takes a string element bearing the
`'pk_'` prefix out of the (possibly collective) proof value: any key it
finds is a prefixed string drawn from the value; when no element is a
prefixed string it fails with "No proof key in update", touching neither
the ledger nor the state; and on the concrete pair
`["pk_deadbeef", "unrelated-value"]` it selects exactly the token-shaped
entry. -/
theorem test_proof_key_scan (st : Store) (affected : GraphUpdate)
    (ledger : String → Option ProofValue) (principal : String) (proof : Json) :
    (∀ k, findProofKey proof = some k →
      strStartsWith k PROOF_KEY_PREFIX = true ∧ Json.str k ∈ jsArray proof) ∧
    ((∀ v ∈ jsArray proof, ∀ s, v = Json.str s →
        strStartsWith s PROOF_KEY_PREFIX = false) →
      ConsensusCondition.test st affected proof (some principal) ledger =
        ⟨.fail "No proof key in update", [], []⟩) ∧
    findProofKey (Json.arr [Json.str "pk_deadbeef", Json.str "unrelated-value"]) =
      some "pk_deadbeef" := by
  refine ⟨?_, ?_, by decide⟩
  · intro k hk
    unfold findProofKey at hk
    split at hk
    · next v hv =>
      cases hk
      refine ⟨?_, List.mem_of_find?_eq_some hv⟩
      simpa using List.find?_some hv
    · next => simp at hk
  · intro hnone
    have hfind : findProofKey proof = none := by
      unfold findProofKey
      have hnf : (jsArray proof).find? (fun v =>
          match v with
          | .str s => strStartsWith s PROOF_KEY_PREFIX
          | _ => false) = none := by
        rw [List.find?_eq_none]
        intro v hv
        cases v
        case str s => simp [hnone (Json.str s) hv s rfl]
        all_goals simp
      rw [hnf]
    simp only [ConsensusCondition.test, hfind]

theorem test_proof_key_scan_witness :
    ConsensusCondition.test (fun _ => none) ⟨[], []⟩
      (Json.arr [Json.str "nope", Json.num 3]) (some "p") (fun _ => none) =
      ⟨.fail "No proof key in update", [], []⟩ :=
  (test_proof_key_scan (fun _ => none) ⟨[], []⟩ (fun _ => none) "p"
    (Json.arr [Json.str "nope", Json.num 3])).2.1 (by
      have hj : jsArray (Json.arr [Json.str "nope", Json.num 3]) =
          [Json.str "nope", Json.num 3] := by decide
      intro v hv s hvs
      rw [hj] at hv
      rcases List.mem_cons.mp hv with rfl | hv2
      · cases hvs
        decide
      · rcases List.mem_cons.mp hv2 with rfl | hv3
        · cases hvs
        · cases hv3)

/-- C2: once the token is resolved and the principal matches, `test` passes
exactly when every (entity, property, value) triple of the locally derived
snapshot is contained in the committed snapshot; a missing triple yields
"Proof does not match update"; and the containment is monotone in the
commitment, so a commitment carrying additional subjects still passes. -/
theorem test_subset_check (st : Store) (affected : GraphUpdate) (proof : Json)
    (ledger : String → Option ProofValue) (pid proofKey : String) (proved : ProofValue)
    (hfind : findProofKey proof = some proofKey)
    (hledger : ledger proofKey = some proved)
    (hpid : proved.pid = pid) :
    ((ConsensusCondition.test st affected proof (some pid) ledger).result =
        TestResult.pass ↔
      TripleSubset proved.state (AffectedLoader.load affected st)) ∧
    (¬ TripleSubset proved.state (AffectedLoader.load affected st) →
      (ConsensusCondition.test st affected proof (some pid) ledger).result =
        TestResult.fail "Proof does not match update") ∧
    (∀ extra : List Subject,
      TripleSubset proved.state (AffectedLoader.load affected st) →
      TripleSubset (proved.state ++ extra) (AffectedLoader.load affected st)) := by
  have hne : (proved.pid != pid) = false := by simp [hpid]
  have hred : (ConsensusCondition.test st affected proof (some pid) ledger).result =
      if stateMatches proved.state (AffectedLoader.load affected st) = true then
        TestResult.pass
      else TestResult.fail "Proof does not match update" := by
    simp only [ConsensusCondition.test, hfind, hledger, hne, Bool.false_eq_true, if_false]
    split <;> rfl
  refine ⟨?_, ?_, ?_⟩
  · rw [hred]
    by_cases hm : stateMatches proved.state (AffectedLoader.load affected st) = true
    · rw [if_pos hm]
      exact iff_of_true rfl (stateMatches_iff _ _ |>.mp hm)
    · rw [if_neg hm]
      constructor
      · intro h
        exact TestResult.noConfusion h
      · intro ht
        exact absurd (stateMatches_iff _ _ |>.mpr ht) hm
  · intro hnot
    rw [hred, if_neg fun hm => hnot (stateMatches_iff _ _ |>.mp hm)]
  · intro extra ht s hs pv hpv v hv
    obtain ⟨ps, hps, hid, hval⟩ := ht s hs pv hpv v hv
    exact ⟨ps, List.mem_append.mpr (Or.inl hps), hid, hval⟩

theorem test_subset_check_witness :
    ((ConsensusCondition.test (fun _ => none)
        ⟨[], [⟨"fred", [("name", [Json.str "Fred"])]⟩]⟩ (Json.str "pk_00") (some "alice")
        (fun k => if k = "pk_00" then
          some ⟨"alice", [⟨"fred", [("name", [Json.str "Fred"])]⟩]⟩ else none)).result =
      TestResult.pass ↔
      TripleSubset [⟨"fred", [("name", [Json.str "Fred"])]⟩]
        (AffectedLoader.load ⟨[], [⟨"fred", [("name", [Json.str "Fred"])]⟩]⟩
          (fun _ => none))) :=
  (test_subset_check (fun _ => none) ⟨[], [⟨"fred", [("name", [Json.str "Fred"])]⟩]⟩
    (Json.str "pk_00")
    (fun k => if k = "pk_00" then
      some ⟨"alice", [⟨"fred", [("name", [Json.str "Fred"])]⟩]⟩ else none)
    "alice" "pk_00" ⟨"alice", [⟨"fred", [("name", [Json.str "Fred"])]⟩]⟩
    (by decide) (by decide) rfl).1

/-- C10: the comparison loop quantifies only over property entries of the
local snapshot (the `'@id'` key is held apart and skipped), so a local
subject all of whose property entries carry the empty value set — an entity
whose properties were all deleted — is matched vacuously: `test` passes for
any committed state, including one with no subject for the entity at all. -/
theorem test_vacuous_empty_props (st : Store) (affected : GraphUpdate) (proof : Json)
    (ledger : String → Option ProofValue) (pid proofKey : String) (proved : ProofValue)
    (hfind : findProofKey proof = some proofKey)
    (hledger : ledger proofKey = some proved)
    (hpid : proved.pid = pid)
    (hempty : ∀ s ∈ AffectedLoader.load affected st, ∀ pv ∈ s.props,
      pv.2 = ([] : List Json)) :
    (ConsensusCondition.test st affected proof (some pid) ledger).result =
      TestResult.pass := by
  have hm : stateMatches proved.state (AffectedLoader.load affected st) = true := by
    rw [stateMatches_iff]
    intro s hs pv hpv v hv
    rw [hempty s hs pv hpv] at hv
    cases hv
  have hne : (proved.pid != pid) = false := by simp [hpid]
  simp only [ConsensusCondition.test, hfind, hledger, hne, Bool.false_eq_true, if_false,
    hm, if_true]

theorem test_vacuous_empty_props_witness :
    (ConsensusCondition.test
      (fun id => if id = "gone" then
        some (fun p => if p = "p" then [Json.str "x"] else []) else none)
      ⟨[⟨"gone", [("p", [Json.str "x"])]⟩], []⟩ (Json.str "pk_00") (some "alice")
      (fun k => if k = "pk_00" then some ⟨"alice", []⟩ else none)).result =
      TestResult.pass :=
  test_vacuous_empty_props
    (fun id => if id = "gone" then
      some (fun p => if p = "p" then [Json.str "x"] else []) else none)
    ⟨[⟨"gone", [("p", [Json.str "x"])]⟩], []⟩ (Json.str "pk_00")
    (fun k => if k = "pk_00" then some ⟨"alice", []⟩ else none)
    "alice" "pk_00" ⟨"alice", []⟩ (by decide) (by decide) rfl (by decide)

/-- C4: every subject the loader builds carries, as property keys, exactly
the properties the delta mentions for that entity: nothing the delta does
not mention is loaded or appears, and everything it mentions appears. -/
theorem load_footprint (affected : GraphUpdate) (st : Store) :
    ∀ s ∈ AffectedLoader.load affected st, ∀ p : String,
      p ∈ s.props.map Prod.fst ↔ p ∈ mentionedProps affected s.id := by
  intro s hs p
  rw [load_eq] at hs
  obtain ⟨id, hid, rfl⟩ := List.mem_map.mp hs
  rw [loadSubject_id, loadSubject_props, map_fst_mapShape, mem_subjectKeys,
    baseSubject_id]
  constructor
  · rintro (h | h)
    · exact base_props_sub p h
    · exact h
  · exact Or.inr

theorem load_footprint_witness :
    "name" ∈ (Subject.mk "fred" [("name", [Json.str "Fred"])]).props.map Prod.fst ↔
      "name" ∈ mentionedProps ⟨[], [⟨"fred", [("name", [Json.str "Fred"])]⟩]⟩
        (Subject.mk "fred" [("name", [Json.str "Fred"])]).id :=
  load_footprint ⟨[], [⟨"fred", [("name", [Json.str "Fred"])]⟩]⟩ (fun _ => none)
    ⟨"fred", [("name", [Json.str "Fred"])]⟩ (by decide) "name"

/-- C5: the snapshot builder is deterministic in the point-in-time store
snapshot: two invocations over stores presenting the same snapshot yield
value-equal subject lists (the subject order and per-property value order
being fixed by the algorithm itself). -/
theorem load_deterministic (affected : GraphUpdate) (st1 st2 : Store)
    (h : StoreEquiv st1 st2) :
    AffectedLoader.load affected st1 = AffectedLoader.load affected st2 := by
  rw [load_eq, load_eq]
  apply List.map_congr_left
  intro id _
  unfold loadSubject
  rcases h id with ⟨h1, h2⟩ | ⟨f, g, h1, h2, hfg⟩
  · unfold Store.get
    rw [h1, h2]
  · unfold Store.get
    rw [h1, h2]
    simp only [Option.map_some', Option.getD_some]
    have hmap : (mentionedProps affected id).map (fun p => (p, f p)) =
        (mentionedProps affected id).map fun p => (p, g p) :=
      List.map_congr_left fun p _ => by rw [hfg p]
    rw [hmap]

theorem load_deterministic_witness :
    AffectedLoader.load ⟨[], [⟨"e", [("q", [Json.num 1])]⟩]⟩
      (fun id => if id = "e" then
        some (fun p => if p = "q" then [Json.num 1] else []) else none) =
    AffectedLoader.load ⟨[], [⟨"e", [("q", [Json.num 1])]⟩]⟩
      (fun id => if id = "e" then
        some (fun p => if p == "q" then [Json.num 1] else []) else none) :=
  load_deterministic ⟨[], [⟨"e", [("q", [Json.num 1])]⟩]⟩ _ _ (by
    intro id
    by_cases hid : id = "e"
    · refine Or.inr ⟨fun p => if p = "q" then [Json.num 1] else [],
        fun p => if p == "q" then [Json.num 1] else [],
        by simp [hid], by simp [hid], ?_⟩
      intro p
      by_cases hp : p = "q" <;> simp [hp]
    · exact Or.inl ⟨by simp [hid], by simp [hid]⟩)

/-- C9: the loader emits exactly one subject per entity identifier mentioned
by the delta, in order of first appearance (so an entity left with empty
value sets is still emitted); an entity the store does not know enters as
the placeholder carrying only its identifier, with the delta applied on
top. -/
theorem load_entities (affected : GraphUpdate) (st : Store) :
    ((AffectedLoader.load affected st).map Subject.id = affectedIds affected) ∧
    (affectedIds affected).Nodup ∧
    (∀ id, id ∈ affectedIds affected ↔
      ∃ s ∈ affected.delete ++ affected.insert, s.id = id) ∧
    (∀ id, st id = none →
      loadSubject affected st id = updateSubject ⟨id, []⟩ affected) := by
  refine ⟨?_, nodup_affectedIds affected, fun id => mem_affectedIds, ?_⟩
  · rw [load_eq, List.map_map]
    have hcong : (affectedIds affected).map (Subject.id ∘ loadSubject affected st) =
        (affectedIds affected).map fun id => id :=
      List.map_congr_left fun id _ => loadSubject_id affected st id
    rw [hcong, List.map_id']
  · intro id hnone
    unfold loadSubject Store.get
    rw [hnone]
    rfl

theorem load_entities_witness :
    loadSubject ⟨[], [⟨"fred", [("name", [Json.str "Fred"])]⟩]⟩ (fun _ => none) "fred" =
      updateSubject ⟨"fred", []⟩ ⟨[], [⟨"fred", [("name", [Json.str "Fred"])]⟩]⟩ :=
  (load_entities ⟨[], [⟨"fred", [("name", [Json.str "Fred"])]⟩]⟩
    (fun _ => none)).2.2.2 "fred" rfl

/-! ## The serialization layer

`prove` writes `JSON.stringify(value).slice(1, -1)` because the Iroha value
channel loses one level of string escaping in transit: the stored bytes are
embedded verbatim in the JSON document the query returns, so reading applies
one string-unescape.  `test` then `JSON.parse`s the recovered string.  The
models below follow ECMA-262 `JSON.stringify` / `JSON.parse` on the values of
the `Json` type (numbers being integers); the parser accepts the
whitespace-free texts the serializer emits. -/

/-- Lower-case hexadecimal digit, as `Number.prototype.toString(16)`. -/
def hexDigit (n : Nat) : Char :=
  match n with
  | 0 => '0' | 1 => '1' | 2 => '2' | 3 => '3' | 4 => '4' | 5 => '5' | 6 => '6'
  | 7 => '7' | 8 => '8' | 9 => '9' | 10 => 'a' | 11 => 'b' | 12 => 'c' | 13 => 'd'
  | 14 => 'e' | _ => 'f'

/-- Value of one hexadecimal digit. -/
def hexVal (c : Char) : Option Nat :=
  if '0' ≤ c ∧ c ≤ '9' then some (c.toNat - 48)
  else if 'a' ≤ c ∧ c ≤ 'f' then some (c.toNat - 87)
  else if 'A' ≤ c ∧ c ≤ 'F' then some (c.toNat - 55)
  else none

/-- `JSON.stringify`'s escaping of one character of a string: the named
escapes, `\u00XX` for other control characters, the character itself
otherwise. -/
def escapeChar (c : Char) : List Char :=
  if c = '"' then ['\\', '"']
  else if c = '\\' then ['\\', '\\']
  else if c = '\x08' then ['\\', 'b']
  else if c = '\x0c' then ['\\', 'f']
  else if c = '\n' then ['\\', 'n']
  else if c = '\r' then ['\\', 'r']
  else if c = '\t' then ['\\', 't']
  else if c.toNat < 32 then
    ['\\', 'u', '0', '0', hexDigit (c.toNat / 16), hexDigit (c.toNat % 16)]
  else [c]

def escapeChars : List Char → List Char
  | [] => []
  | c :: cs => escapeChar c ++ escapeChars cs

/-- A JSON string literal: quote, escaped body, quote. -/
def strChars (s : String) : List Char := '"' :: (escapeChars s.data ++ ['"'])

def digitChar (n : Nat) : Char := Char.ofNat (48 + n)

/-- Decimal digits of a natural number. -/
def natChars (n : Nat) : List Char :=
  if n < 10 then [digitChar n]
  else natChars (n / 10) ++ [digitChar (n % 10)]
termination_by n
decreasing_by exact Nat.div_lt_self (by omega) (by omega)

/-- JS printing of an integer number. -/
def intChars : Int → List Char
  | .ofNat n => natChars n
  | .negSucc n => '-' :: natChars (n + 1)

mutual

/-- The text `JSON.stringify` produces for a value, as characters. -/
def charsJ : Json → List Char
  | .num n => intChars n
  | .str s => strChars s
  | .arr xs => '[' :: (sepE xs ++ [']'])
  | .obj kvs => '{' :: (sepM kvs ++ ['}'])
  | .null => 'n' :: ['u', 'l', 'l']
  | .bool b => if b then 't' :: ['r', 'u', 'e'] else 'f' :: ['a', 'l', 's', 'e']

/-- Comma-separated array elements. -/
def sepE : List Json → List Char
  | [] => []
  | [x] => charsJ x
  | x :: y :: t => charsJ x ++ (',' :: sepE (y :: t))

/-- Comma-separated object members, each `"key":value`. -/
def sepM : List (String × Json) → List Char
  | [] => []
  | [(k, v)] => strChars k ++ (':' :: charsJ v)
  | (k, v) :: e :: t => (strChars k ++ (':' :: charsJ v)) ++ (',' :: sepM (e :: t))

end

/-- `JSON.stringify`. -/
def Json.stringify (j : Json) : String := String.mk (charsJ j)

/-- The encoding in `setAccountDetail`: `JSON.stringify(value).slice(1, -1)`
applied to the already serialized commitment string — the body of the JSON
string literal for it, outer quotes stripped. -/
def encodeDetailValue (s : String) : String :=
  String.mk (((charsJ (Json.str s)).drop 1).dropLast)

/-- A named escape code after a backslash, as `JSON.parse` reads it. -/
def unescapeCode (e : Char) : Option Char :=
  if e = '"' then some '"'
  else if e = '\\' then some '\\'
  else if e = '/' then some '/'
  else if e = 'b' then some '\x08'
  else if e = 'f' then some '\x0c'
  else if e = 'n' then some '\n'
  else if e = 'r' then some '\r'
  else if e = 't' then some '\t'
  else none

def hex4 (h1 h2 h3 h4 : Char) : Option Nat := do
  let a ← hexVal h1
  let b ← hexVal h2
  let c ← hexVal h3
  let d ← hexVal h4
  pure (((a * 16 + b) * 16 + c) * 16 + d)

/-- Modelled from the spec: the value channel loses one level of string
escaping in transit — what the reader recovers is the stored text with one
JSON string-unescape applied (an unescaped quote or bad escape would corrupt
the carrying document). -/
def unescapeChars : List Char → Option (List Char)
  | [] => some []
  | c :: rest =>
    if c = '"' then none
    else if c = '\\' then
      match rest with
      | e :: rest2 =>
        if e = 'u' then
          match rest2 with
          | h1 :: h2 :: h3 :: h4 :: rest3 =>
            match hex4 h1 h2 h3 h4 with
            | some n => (unescapeChars rest3).map fun cs => Char.ofNat n :: cs
            | none => none
          | _ => none
        else
          match unescapeCode e with
          | some c2 => (unescapeChars rest2).map fun cs => c2 :: cs
          | none => none
      | [] => none
    else (unescapeChars rest).map fun cs => c :: cs

/-- The channel decode at `String` granularity. -/
def channelDecode (s : String) : Option String :=
  (unescapeChars s.data).map String.mk

/-- The body of a JSON string literal, after the opening quote: characters
up to the closing quote, escapes decoded. -/
def parseStringBody : List Char → Option (List Char × List Char)
  | [] => none
  | c :: rest =>
    if c = '"' then some ([], rest)
    else if c = '\\' then
      match rest with
      | e :: rest2 =>
        if e = 'u' then
          match rest2 with
          | h1 :: h2 :: h3 :: h4 :: rest3 =>
            match hex4 h1 h2 h3 h4 with
            | some n => (parseStringBody rest3).map fun r => (Char.ofNat n :: r.1, r.2)
            | none => none
          | _ => none
        else
          match unescapeCode e with
          | some c2 => (parseStringBody rest2).map fun r => (c2 :: r.1, r.2)
          | none => none
      | [] => none
    else (parseStringBody rest).map fun r => (c :: r.1, r.2)

/-- Maximal run of decimal digits, accumulating their value. -/
def parseDigits (acc : Nat) : List Char → Nat × List Char
  | [] => (acc, [])
  | c :: rest =>
    if c.isDigit then parseDigits (acc * 10 + (c.toNat - 48)) rest
    else (acc, c :: rest)

/-- A non-empty digit run with its value. -/
def parseNat : List Char → Option (Nat × List Char)
  | [] => none
  | c :: rest =>
    if c.isDigit then some (parseDigits (c.toNat - 48) rest)
    else none

/-- An integer JSON number: optional minus sign, then digits. -/
def parseNumber (l : List Char) : Option (Int × List Char) :=
  match l with
  | [] => none
  | c :: rest =>
    if c = '-' then (parseNat rest).map fun r => (-(r.1 : Int), r.2)
    else (parseNat l).map fun r => ((r.1 : Int), r.2)

mutual

/-- `JSON.parse` on the whitespace-free grammar, fuelled: one JSON value,
returning it with the unconsumed remainder. -/
def parseValue : Nat → List Char → Option (Json × List Char)
  | 0, _ => none
  | _ + 1, [] => none
  | fuel + 1, c :: rest =>
    if c = '"' then (parseStringBody rest).map fun r => (Json.str (String.mk r.1), r.2)
    else if c = '[' then (parseElems fuel rest).map fun r => (Json.arr r.1, r.2)
    else if c = '{' then (parseMembers fuel rest).map fun r => (Json.obj r.1, r.2)
    else if c = 't' then
      match rest with
      | c1 :: c2 :: c3 :: rest2 =>
        if c1 = 'r' ∧ c2 = 'u' ∧ c3 = 'e' then some (Json.bool true, rest2) else none
      | _ => none
    else if c = 'f' then
      match rest with
      | c1 :: c2 :: c3 :: c4 :: rest2 =>
        if c1 = 'a' ∧ c2 = 'l' ∧ c3 = 's' ∧ c4 = 'e' then some (Json.bool false, rest2)
        else none
      | _ => none
    else if c = 'n' then
      match rest with
      | c1 :: c2 :: c3 :: rest2 =>
        if c1 = 'u' ∧ c2 = 'l' ∧ c3 = 'l' then some (Json.null, rest2) else none
      | _ => none
    else (parseNumber (c :: rest)).map fun r => (Json.num r.1, r.2)

/-- Array elements up to the closing bracket. -/
def parseElems : Nat → List Char → Option (List Json × List Char)
  | 0, _ => none
  | _ + 1, [] => none
  | fuel + 1, c :: rest =>
    if c = ']' then some ([], rest)
    else
      match parseValue fuel (c :: rest) with
      | some (j, d :: rest2) =>
        if d = ',' then (parseElems fuel rest2).map fun r => (j :: r.1, r.2)
        else if d = ']' then some ([j], rest2)
        else none
      | _ => none

/-- Object members up to the closing brace. -/
def parseMembers : Nat → List Char → Option (List (String × Json) × List Char)
  | 0, _ => none
  | _ + 1, [] => none
  | fuel + 1, c :: rest =>
    if c = '}' then some ([], rest)
    else if c = '"' then
      match parseStringBody rest with
      | some (kcs, d :: rest2) =>
        if d = ':' then
          match parseValue fuel rest2 with
          | some (v, e :: rest3) =>
            if e = ',' then
              (parseMembers fuel rest3).map fun r => ((String.mk kcs, v) :: r.1, r.2)
            else if e = '}' then some ([(String.mk kcs, v)], rest3)
            else none
          | _ => none
        else none
      | _ => none
    else none

end

/-- `JSON.parse`: a full text denoting one value. -/
def Json.parse (s : String) : Option Json :=
  match parseValue (s.length + 1) s.data with
  | some (j, []) => some j
  | _ => none

/-- The JSON value of a subject, as serialized by `prove`: the `'@id'` entry
then the property entries, value lists as arrays. -/
def Subject.toJson (s : Subject) : Json :=
  Json.obj (("@id", Json.str s.id) :: s.props.map fun pv => (pv.1, Json.arr pv.2))

/-- The JSON value of a commitment `{pid, state}`. -/
def ProofValue.toJson (pv : ProofValue) : Json :=
  Json.obj [("pid", Json.str pv.pid), ("state", Json.arr (pv.state.map Subject.toJson))]

/-! ### Round trip of the escaping layer -/

theorem hexVal_hexDigit {m : Nat} (h : m < 16) : hexVal (hexDigit m) = some m := by
  interval_cases m <;> decide

theorem hex4_digits (c : Char) (h : c.toNat < 32) :
    hex4 '0' '0' (hexDigit (c.toNat / 16)) (hexDigit (c.toNat % 16)) = some c.toNat := by
  have hq : c.toNat / 16 < 16 := by omega
  have hr : c.toNat % 16 < 16 := by omega
  have h0 : hexVal '0' = some 0 := by decide
  unfold hex4
  rw [h0, hexVal_hexDigit hq, hexVal_hexDigit hr]
  show some _ = some _
  exact congrArg some (by omega)

theorem parseStringBody_escapeChar (c : Char) (tail : List Char) :
    parseStringBody (escapeChar c ++ tail) =
      (parseStringBody tail).map fun r => (c :: r.1, r.2) := by
  unfold escapeChar
  split_ifs with h1 h2 h3 h4 h5 h6 h7 h8
  · subst h1
    rw [List.cons_append, parseStringBody.eq_def]
    simp [unescapeCode]
  · subst h2
    rw [List.cons_append, parseStringBody.eq_def]
    simp [unescapeCode]
  · subst h3
    rw [List.cons_append, parseStringBody.eq_def]
    simp [unescapeCode]
  · subst h4
    rw [List.cons_append, parseStringBody.eq_def]
    simp [unescapeCode]
  · subst h5
    rw [List.cons_append, parseStringBody.eq_def]
    simp [unescapeCode]
  · subst h6
    rw [List.cons_append, parseStringBody.eq_def]
    simp [unescapeCode]
  · subst h7
    rw [List.cons_append, parseStringBody.eq_def]
    simp [unescapeCode]
  · rw [List.cons_append, parseStringBody.eq_def]
    simp [hex4_digits c h8, Char.ofNat_toNat]
  · rw [List.cons_append, parseStringBody.eq_def]
    have hd : ¬ c = '"' := h1
    have he : ¬ c = '\\' := h2
    simp [hd, he]

theorem parseStringBody_escapeChars (cs : List Char) (rest : List Char) :
    parseStringBody (escapeChars cs ++ ('"' :: rest)) = some (cs, rest) := by
  induction cs with
  | nil =>
    rw [escapeChars, List.nil_append, parseStringBody.eq_def]
    simp
  | cons c cs ih =>
    rw [escapeChars, List.append_assoc, parseStringBody_escapeChar, ih, Option.map_some']

theorem unescapeChars_escapeChar (c : Char) (tail : List Char) :
    unescapeChars (escapeChar c ++ tail) =
      (unescapeChars tail).map fun cs => c :: cs := by
  unfold escapeChar
  split_ifs with h1 h2 h3 h4 h5 h6 h7 h8
  · subst h1
    rw [List.cons_append, unescapeChars.eq_def]
    simp [unescapeCode]
  · subst h2
    rw [List.cons_append, unescapeChars.eq_def]
    simp [unescapeCode]
  · subst h3
    rw [List.cons_append, unescapeChars.eq_def]
    simp [unescapeCode]
  · subst h4
    rw [List.cons_append, unescapeChars.eq_def]
    simp [unescapeCode]
  · subst h5
    rw [List.cons_append, unescapeChars.eq_def]
    simp [unescapeCode]
  · subst h6
    rw [List.cons_append, unescapeChars.eq_def]
    simp [unescapeCode]
  · subst h7
    rw [List.cons_append, unescapeChars.eq_def]
    simp [unescapeCode]
  · rw [List.cons_append, unescapeChars.eq_def]
    simp [hex4_digits c h8, Char.ofNat_toNat]
  · rw [List.cons_append, unescapeChars.eq_def]
    have hd : ¬ c = '"' := h1
    have he : ¬ c = '\\' := h2
    simp [hd, he]

/-- One string-unescape undoes `JSON.stringify`'s string escaping: the
channel's loss of one level of escaping recovers the stored text exactly. -/
theorem unescapeChars_escapeChars (cs : List Char) :
    unescapeChars (escapeChars cs) = some cs := by
  induction cs with
  | nil => rfl
  | cons c cs ih =>
    rw [escapeChars, unescapeChars_escapeChar, ih, Option.map_some']

/-! ### Round trip of numbers -/

/-- The remainder after a serialized fragment never continues with a digit
(it is empty or starts with a structural character), so maximal-munch number
parsing stops exactly at the fragment boundary. -/
def noDigitHead : List Char → Prop
  | [] => True
  | c :: _ => c.isDigit = false

theorem digitChar_isDigit {d : Nat} (h : d < 10) : (digitChar d).isDigit = true := by
  interval_cases d <;> decide

theorem digitChar_toNat {d : Nat} (h : d < 10) : (digitChar d).toNat = 48 + d := by
  interval_cases d <;> decide

theorem natChars_head (n : Nat) : ∃ d t, natChars n = digitChar d :: t ∧ d < 10 := by
  induction n using Nat.strong_induction_on with
  | _ n ih =>
    rw [natChars]
    by_cases h : n < 10
    · refine ⟨n, [], ?_, h⟩
      rw [if_pos h]
    · obtain ⟨d, t, hd, hlt⟩ := ih (n / 10) (Nat.div_lt_self (by omega) (by omega))
      refine ⟨d, t ++ [digitChar (n % 10)], ?_, hlt⟩
      rw [if_neg h, hd]
      rfl

theorem parseDigits_append_natChars (n : Nat) :
    ∀ (acc : Nat) (rest : List Char),
      parseDigits acc (natChars n ++ rest) =
        parseDigits (acc * 10 ^ (natChars n).length + n) rest := by
  induction n using Nat.strong_induction_on with
  | _ n ih =>
    intro acc rest
    rw [natChars]
    by_cases h : n < 10
    · rw [if_pos h, List.singleton_append, List.length_singleton]
      simp [parseDigits, digitChar_isDigit h, digitChar_toNat h]
    · have hdiv : n / 10 < n := Nat.div_lt_self (by omega) (by omega)
      have h10 : n % 10 < 10 := Nat.mod_lt _ (by omega)
      rw [if_neg h, List.append_assoc, ih (n / 10) hdiv, List.singleton_append]
      simp only [parseDigits, digitChar_isDigit h10, digitChar_toNat h10, if_true]
      have harith :
          (acc * 10 ^ (natChars (n / 10)).length + n / 10) * 10 + (48 + n % 10 - 48) =
            acc * 10 ^ (natChars (n / 10) ++ [digitChar (n % 10)]).length + n := by
        rw [List.length_append, List.length_singleton, pow_succ]
        have : acc * (10 ^ (natChars (n / 10)).length * 10) =
            acc * 10 ^ (natChars (n / 10)).length * 10 := by ring
        rw [this]
        omega
      rw [harith]

theorem parseDigits_done (acc : Nat) (rest : List Char) (h : noDigitHead rest) :
    parseDigits acc rest = (acc, rest) := by
  cases rest with
  | nil => rfl
  | cons c t =>
    have hc : c.isDigit = false := h
    simp [parseDigits, hc]

theorem parseDigits_natChars (n : Nat) (rest : List Char) (h : noDigitHead rest) :
    parseDigits 0 (natChars n ++ rest) = (n, rest) := by
  rw [parseDigits_append_natChars, parseDigits_done _ _ h]
  simp

theorem parseNat_cons (c : Char) (rest : List Char) :
    parseNat (c :: rest) =
      if c.isDigit then some (parseDigits (c.toNat - 48) rest) else none := rfl

theorem parseNumber_cons (c : Char) (rest : List Char) :
    parseNumber (c :: rest) =
      if c = '-' then (parseNat rest).map fun r => (-(r.1 : Int), r.2)
      else (parseNat (c :: rest)).map fun r => ((r.1 : Int), r.2) := rfl

theorem parseNat_natChars (n : Nat) (rest : List Char) (h : noDigitHead rest) :
    parseNat (natChars n ++ rest) = some (n, rest) := by
  obtain ⟨d, t, hd, hlt⟩ := natChars_head n
  have hstep : parseDigits 0 (natChars n ++ rest) =
      parseDigits ((digitChar d).toNat - 48) (t ++ rest) := by
    rw [hd, List.cons_append]
    simp [parseDigits, digitChar_isDigit hlt]
  have htail : parseDigits ((digitChar d).toNat - 48) (t ++ rest) = (n, rest) := by
    rw [← hstep, parseDigits_natChars n rest h]
  rw [hd, List.cons_append, parseNat_cons, if_pos (digitChar_isDigit hlt), htail]

theorem parseNumber_intChars (n : Int) (rest : List Char) (h : noDigitHead rest) :
    parseNumber (intChars n ++ rest) = some (n, rest) := by
  cases n with
  | ofNat m =>
    show parseNumber (natChars m ++ rest) = some ((m : Int), rest)
    obtain ⟨d, t, hd, hlt⟩ := natChars_head m
    have hnm : ¬ digitChar d = '-' := by
      intro he
      have h45 : ('-' : Char).toNat = 45 := by decide
      have := congrArg Char.toNat he
      rw [digitChar_toNat hlt, h45] at this
      omega
    rw [hd, List.cons_append, parseNumber_cons, if_neg hnm, ← List.cons_append, ← hd,
      parseNat_natChars m rest h, Option.map_some']
  | negSucc m =>
    show parseNumber (('-' :: natChars (m + 1)) ++ rest) = some (Int.negSucc m, rest)
    rw [List.cons_append, parseNumber_cons, if_pos rfl,
      parseNat_natChars (m + 1) rest h, Option.map_some']
    simp [Int.negSucc_eq]

/-! ### Round trip of full values -/

mutual

/-- Fuel sufficient to parse a value: one unit per nesting step. -/
def sizeJ : Json → Nat
  | .null => 1
  | .bool _ => 1
  | .num _ => 1
  | .str _ => 1
  | .arr xs => 1 + sizeE xs
  | .obj kvs => 1 + sizeM kvs

def sizeE : List Json → Nat
  | [] => 1
  | x :: t => 1 + max (sizeJ x) (sizeE t)

def sizeM : List (String × Json) → Nat
  | [] => 1
  | e :: t => 1 + max (sizeJ e.2) (sizeM t)

end

theorem sizeJ_pos (j : Json) : 1 ≤ sizeJ j := by
  cases j <;> simp [sizeJ]

theorem sizeE_pos (xs : List Json) : 1 ≤ sizeE xs := by
  cases xs <;> simp [sizeE]

theorem sizeM_pos (kvs : List (String × Json)) : 1 ≤ sizeM kvs := by
  cases kvs <;> simp [sizeM]

theorem parseValue_cons (fuel : Nat) (c : Char) (rest : List Char) :
    parseValue (fuel + 1) (c :: rest) =
      (if c = '"' then (parseStringBody rest).map fun r => (Json.str (String.mk r.1), r.2)
      else if c = '[' then (parseElems fuel rest).map fun r => (Json.arr r.1, r.2)
      else if c = '{' then (parseMembers fuel rest).map fun r => (Json.obj r.1, r.2)
      else if c = 't' then
        match rest with
        | c1 :: c2 :: c3 :: rest2 =>
          if c1 = 'r' ∧ c2 = 'u' ∧ c3 = 'e' then some (Json.bool true, rest2) else none
        | _ => none
      else if c = 'f' then
        match rest with
        | c1 :: c2 :: c3 :: c4 :: rest2 =>
          if c1 = 'a' ∧ c2 = 'l' ∧ c3 = 's' ∧ c4 = 'e' then some (Json.bool false, rest2)
          else none
        | _ => none
      else if c = 'n' then
        match rest with
        | c1 :: c2 :: c3 :: rest2 =>
          if c1 = 'u' ∧ c2 = 'l' ∧ c3 = 'l' then some (Json.null, rest2) else none
        | _ => none
      else (parseNumber (c :: rest)).map fun r => (Json.num r.1, r.2)) := rfl

theorem parseElems_cons (fuel : Nat) (c : Char) (rest : List Char) :
    parseElems (fuel + 1) (c :: rest) =
      (if c = ']' then some ([], rest)
      else
        match parseValue fuel (c :: rest) with
        | some (j, d :: rest2) =>
          if d = ',' then (parseElems fuel rest2).map fun r => (j :: r.1, r.2)
          else if d = ']' then some ([j], rest2)
          else none
        | _ => none) := rfl

theorem parseMembers_cons (fuel : Nat) (c : Char) (rest : List Char) :
    parseMembers (fuel + 1) (c :: rest) =
      (if c = '}' then some ([], rest)
      else if c = '"' then
        match parseStringBody rest with
        | some (kcs, d :: rest2) =>
          if d = ':' then
            match parseValue fuel rest2 with
            | some (v, e :: rest3) =>
              if e = ',' then
                (parseMembers fuel rest3).map fun r => ((String.mk kcs, v) :: r.1, r.2)
              else if e = '}' then some ([(String.mk kcs, v)], rest3)
              else none
            | _ => none
          else none
        | _ => none
      else none) := rfl

theorem intChars_ofNat (m : Nat) : intChars (Int.ofNat m) = natChars m := rfl

theorem digitChar_not_special {d : Nat} (h : d < 10) :
    ¬ digitChar d = '"' ∧ ¬ digitChar d = '[' ∧ ¬ digitChar d = '{' ∧
    ¬ digitChar d = 't' ∧ ¬ digitChar d = 'f' ∧ ¬ digitChar d = 'n' ∧
    ¬ digitChar d = ']' ∧ ¬ digitChar d = '}' ∧ ¬ digitChar d = ',' := by
  interval_cases d <;> exact
    ⟨by decide, by decide, by decide, by decide, by decide, by decide,
     by decide, by decide, by decide⟩

/-- Every serialized value starts with a character that is not a closing
bracket (so element parsing is never cut short). -/
theorem charsJ_cons (j : Json) : ∃ c cs, charsJ j = c :: cs ∧ ¬ c = ']' := by
  cases j with
  | null => exact ⟨'n', _, rfl, by decide⟩
  | bool b => cases b with
    | false => exact ⟨'f', _, rfl, by decide⟩
    | true => exact ⟨'t', _, rfl, by decide⟩
  | num n =>
    cases n with
    | ofNat m =>
      obtain ⟨d, t, hd, hlt⟩ := natChars_head m
      refine ⟨digitChar d, t, ?_, (digitChar_not_special hlt).2.2.2.2.2.2.1⟩
      rw [show charsJ (Json.num (Int.ofNat m)) = natChars m from rfl, hd]
    | negSucc m => exact ⟨'-', _, rfl, by decide⟩
  | str s => exact ⟨'"', _, rfl, by decide⟩
  | arr xs => exact ⟨'[', _, rfl, by decide⟩
  | obj kvs => exact ⟨'{', _, rfl, by decide⟩

theorem strChars_append (k : String) (X : List Char) :
    strChars k ++ X = '"' :: (escapeChars k.data ++ ('"' :: X)) := by
  unfold strChars
  simp [List.append_assoc]

/-- The parser reads back exactly what the serializer wrote, leaving the
remainder untouched, given fuel covering the nesting depth. -/
theorem parse_rt (fuel : Nat) :
    (∀ (j : Json) (rest : List Char), sizeJ j ≤ fuel → noDigitHead rest →
      parseValue fuel (charsJ j ++ rest) = some (j, rest)) ∧
    (∀ (xs : List Json) (rest : List Char), sizeE xs ≤ fuel →
      parseElems fuel (sepE xs ++ (']' :: rest)) = some (xs, rest)) ∧
    (∀ (kvs : List (String × Json)) (rest : List Char), sizeM kvs ≤ fuel →
      parseMembers fuel (sepM kvs ++ ('}' :: rest)) = some (kvs, rest)) := by
  induction fuel using Nat.strong_induction_on with
  | _ fuel ih =>
    cases fuel with
    | zero =>
      refine ⟨?_, ?_, ?_⟩
      · intro j rest hsz _
        exact absurd hsz (by have := sizeJ_pos j; omega)
      · intro xs rest hsz
        exact absurd hsz (by have := sizeE_pos xs; omega)
      · intro kvs rest hsz
        exact absurd hsz (by have := sizeM_pos kvs; omega)
    | succ fuel =>
      have ihV := (ih fuel (by omega)).1
      have ihE := (ih fuel (by omega)).2.1
      have ihM := (ih fuel (by omega)).2.2
      refine ⟨?_, ?_, ?_⟩
      · intro j rest hsz hnd
        cases j with
        | null => simp [charsJ, parseValue_cons]
        | bool b => cases b <;> simp [charsJ, parseValue_cons]
        | num n =>
          cases n with
          | ofNat m =>
            obtain ⟨d, t, hd, hlt⟩ := natChars_head m
            obtain ⟨h1, h2, h3, h4, h5, h6, _, _, _⟩ := digitChar_not_special hlt
            rw [show charsJ (Json.num (Int.ofNat m)) = natChars m from rfl, hd,
              List.cons_append, parseValue_cons, if_neg h1, if_neg h2, if_neg h3,
              if_neg h4, if_neg h5, if_neg h6, ← List.cons_append, ← hd,
              ← intChars_ofNat, parseNumber_intChars _ rest hnd, Option.map_some']
          | negSucc m =>
            rw [show charsJ (Json.num (Int.negSucc m)) = '-' :: natChars (m + 1) from rfl,
              List.cons_append, parseValue_cons, if_neg (by decide), if_neg (by decide),
              if_neg (by decide), if_neg (by decide), if_neg (by decide),
              if_neg (by decide), ← List.cons_append,
              show ('-' :: natChars (m + 1) : List Char) = intChars (Int.negSucc m)
                from rfl,
              parseNumber_intChars _ rest hnd, Option.map_some']
        | str s =>
          obtain ⟨sdata⟩ := s
          rw [show charsJ (Json.str ⟨sdata⟩) = strChars ⟨sdata⟩ from rfl,
            strChars_append, parseValue_cons, if_pos rfl,
            parseStringBody_escapeChars, Option.map_some']
        | arr xs =>
          have hsz' : sizeE xs ≤ fuel := by
            have hx : sizeJ (Json.arr xs) = 1 + sizeE xs := rfl
            omega
          rw [show charsJ (Json.arr xs) = '[' :: (sepE xs ++ [']']) from rfl,
            List.cons_append, parseValue_cons, if_neg (by decide), if_pos rfl,
            List.append_assoc, List.singleton_append, ihE xs rest hsz',
            Option.map_some']
        | obj kvs =>
          have hsz' : sizeM kvs ≤ fuel := by
            have hx : sizeJ (Json.obj kvs) = 1 + sizeM kvs := rfl
            omega
          rw [show charsJ (Json.obj kvs) = '{' :: (sepM kvs ++ ['}']) from rfl,
            List.cons_append, parseValue_cons, if_neg (by decide), if_neg (by decide),
            if_pos rfl, List.append_assoc, List.singleton_append, ihM kvs rest hsz',
            Option.map_some']
      · intro xs rest hsz
        cases xs with
        | nil =>
          rw [show sepE [] = ([] : List Char) from rfl, List.nil_append,
            parseElems_cons, if_pos rfl]
        | cons x t =>
          obtain ⟨c, cs, hc, hne⟩ := charsJ_cons x
          cases t with
          | nil =>
            have hszx : sizeJ x ≤ fuel := by
              have hx : sizeE [x] = 1 + max (sizeJ x) (sizeE []) := rfl
              have hm := Nat.le_max_left (sizeJ x) (sizeE [])
              omega
            have hval := ihV x (']' :: rest) hszx (by exact rfl)
            rw [show sepE [x] = charsJ x from rfl, hc, List.cons_append,
              parseElems_cons, if_neg hne, ← List.cons_append, ← hc]
            simp [hval]
          | cons y t2 =>
            have hszx : sizeJ x ≤ fuel := by
              have hx : sizeE (x :: y :: t2) = 1 + max (sizeJ x) (sizeE (y :: t2)) := rfl
              have hm := Nat.le_max_left (sizeJ x) (sizeE (y :: t2))
              omega
            have hszt : sizeE (y :: t2) ≤ fuel := by
              have hx : sizeE (x :: y :: t2) = 1 + max (sizeJ x) (sizeE (y :: t2)) := rfl
              have hm := Nat.le_max_right (sizeJ x) (sizeE (y :: t2))
              omega
            have hval := ihV x (',' :: (sepE (y :: t2) ++ (']' :: rest))) hszx
              (by exact rfl)
            have htail := ihE (y :: t2) rest hszt
            rw [show sepE (x :: y :: t2) = charsJ x ++ (',' :: sepE (y :: t2)) from rfl,
              List.append_assoc, List.cons_append, hc, List.cons_append,
              parseElems_cons, if_neg hne, ← List.cons_append, ← hc]
            simp [hval, htail]
      · intro kvs rest hsz
        cases kvs with
        | nil =>
          rw [show sepM [] = ([] : List Char) from rfl, List.nil_append,
            parseMembers_cons, if_pos rfl]
        | cons kv t =>
          obtain ⟨k, v⟩ := kv
          cases t with
          | nil =>
            have hszv : sizeJ v ≤ fuel := by
              have hx : sizeM [(k, v)] = 1 + max (sizeJ v) (sizeM []) := rfl
              have hm := Nat.le_max_left (sizeJ v) (sizeM [])
              omega
            have hval := ihV v ('}' :: rest) hszv (by exact rfl)
            rw [show sepM [(k, v)] = strChars k ++ (':' :: charsJ v) from rfl,
              List.append_assoc, List.cons_append, strChars_append,
              parseMembers_cons, if_neg (by decide), if_pos rfl,
              parseStringBody_escapeChars]
            obtain ⟨kdata⟩ := k
            simp [hval]
          | cons kv2 t2 =>
            have hszv : sizeJ v ≤ fuel := by
              have hx : sizeM ((k, v) :: kv2 :: t2) =
                  1 + max (sizeJ v) (sizeM (kv2 :: t2)) := rfl
              have hm := Nat.le_max_left (sizeJ v) (sizeM (kv2 :: t2))
              omega
            have hszt : sizeM (kv2 :: t2) ≤ fuel := by
              have hx : sizeM ((k, v) :: kv2 :: t2) =
                  1 + max (sizeJ v) (sizeM (kv2 :: t2)) := rfl
              have hm := Nat.le_max_right (sizeJ v) (sizeM (kv2 :: t2))
              omega
            have hval := ihV v (',' :: (sepM (kv2 :: t2) ++ ('}' :: rest))) hszv
              (by exact rfl)
            have htail := ihM (kv2 :: t2) rest hszt
            rw [show sepM ((k, v) :: kv2 :: t2) =
                (strChars k ++ (':' :: charsJ v)) ++ (',' :: sepM (kv2 :: t2)) from rfl,
              List.append_assoc, List.append_assoc, List.cons_append,
              List.cons_append, strChars_append, parseMembers_cons,
              if_neg (by decide), if_pos rfl, parseStringBody_escapeChars]
            obtain ⟨kdata⟩ := k
            simp [hval, htail]

/-- The serialized length plus one is always fuel enough. -/
theorem size_le_len (n : Nat) :
    (∀ j : Json, sizeOf j ≤ n → sizeJ j ≤ (charsJ j).length + 1) ∧
    (∀ xs : List Json, sizeOf xs ≤ n → sizeE xs ≤ (sepE xs).length + 2) ∧
    (∀ kvs : List (String × Json), sizeOf kvs ≤ n →
      sizeM kvs ≤ (sepM kvs).length + 2) := by
  induction n using Nat.strong_induction_on with
  | _ n ih =>
    refine ⟨?_, ?_, ?_⟩
    · intro j hj
      cases j with
      | null => simp [sizeJ, charsJ]
      | bool b => cases b <;> simp [sizeJ, charsJ]
      | num m => have : sizeJ (Json.num m) = 1 := rfl
                 omega
      | str s => have : sizeJ (Json.str s) = 1 := rfl
                 omega
      | arr xs =>
        have hspec : sizeOf (Json.arr xs) = 1 + sizeOf xs := by simp
        have hlt : sizeOf xs < n := by omega
        have hE := (ih _ hlt).2.1 xs le_rfl
        have hsz : sizeJ (Json.arr xs) = 1 + sizeE xs := rfl
        have hlen : (charsJ (Json.arr xs)).length = (sepE xs).length + 2 := by
          rw [show charsJ (Json.arr xs) = '[' :: (sepE xs ++ [']']) from rfl]
          simp
        omega
      | obj kvs =>
        have hspec : sizeOf (Json.obj kvs) = 1 + sizeOf kvs := by simp
        have hlt : sizeOf kvs < n := by omega
        have hM := (ih _ hlt).2.2 kvs le_rfl
        have hsz : sizeJ (Json.obj kvs) = 1 + sizeM kvs := rfl
        have hlen : (charsJ (Json.obj kvs)).length = (sepM kvs).length + 2 := by
          rw [show charsJ (Json.obj kvs) = '{' :: (sepM kvs ++ ['}']) from rfl]
          simp
        omega
    · intro xs hxs
      cases xs with
      | nil =>
        have h1 : sizeE [] = 1 := rfl
        omega
      | cons x t =>
        have hspec : sizeOf (x :: t) = 1 + sizeOf x + sizeOf t := by simp
        have hx : sizeOf x < n := by omega
        have hJ := (ih _ hx).1 x le_rfl
        cases t with
        | nil =>
          have hsz : sizeE [x] = 1 + max (sizeJ x) (sizeE []) := rfl
          have h1 : sizeE [] = 1 := rfl
          have hsep : sepE [x] = charsJ x := rfl
          have hm : max (sizeJ x) (sizeE []) ≤ (charsJ x).length + 1 :=
            max_le hJ (by omega)
          rw [hsep]
          omega
        | cons y t2 =>
          have ht : sizeOf (y :: t2) < n := by omega
          have hT := (ih _ ht).2.1 (y :: t2) le_rfl
          have hsz : sizeE (x :: y :: t2) = 1 + max (sizeJ x) (sizeE (y :: t2)) := rfl
          have hsep : sepE (x :: y :: t2) = charsJ x ++ (',' :: sepE (y :: t2)) := rfl
          have hlen : (sepE (x :: y :: t2)).length =
              (charsJ x).length + 1 + (sepE (y :: t2)).length := by
            rw [hsep]
            simp only [List.length_append, List.length_cons]
            omega
          have hm : max (sizeJ x) (sizeE (y :: t2)) ≤
              (charsJ x).length + (sepE (y :: t2)).length + 2 :=
            max_le (by omega) (by omega)
          omega
    · intro kvs hkvs
      cases kvs with
      | nil =>
        have h1 : sizeM [] = 1 := rfl
        omega
      | cons kv t =>
        obtain ⟨k, v⟩ := kv
        have hspec : sizeOf ((k, v) :: t) = 1 + sizeOf (k, v) + sizeOf t := by simp
        have hspec2 : sizeOf (k, v) = 1 + sizeOf k + sizeOf v := by simp
        have hv : sizeOf v < n := by omega
        have hJ := (ih _ hv).1 v le_rfl
        cases t with
        | nil =>
          have hsz : sizeM [(k, v)] = 1 + max (sizeJ v) (sizeM []) := rfl
          have h1 : sizeM [] = 1 := rfl
          have hsep : sepM [(k, v)] = strChars k ++ (':' :: charsJ v) := rfl
          have hlen : (sepM [(k, v)]).length =
              (strChars k).length + 1 + (charsJ v).length := by
            rw [hsep]
            simp only [List.length_append, List.length_cons]
            omega
          have hm : max (sizeJ v) (sizeM []) ≤ (charsJ v).length + 1 :=
            max_le hJ (by omega)
          omega
        | cons kv2 t2 =>
          have ht : sizeOf (kv2 :: t2) < n := by omega
          have hT := (ih _ ht).2.2 (kv2 :: t2) le_rfl
          have hsz : sizeM ((k, v) :: kv2 :: t2) =
              1 + max (sizeJ v) (sizeM (kv2 :: t2)) := rfl
          have hsep : sepM ((k, v) :: kv2 :: t2) =
              (strChars k ++ (':' :: charsJ v)) ++ (',' :: sepM (kv2 :: t2)) := rfl
          have hlen : (sepM ((k, v) :: kv2 :: t2)).length =
              (strChars k).length + 1 + (charsJ v).length + 1 +
                (sepM (kv2 :: t2)).length := by
            rw [hsep]
            simp only [List.length_append, List.length_cons]
            omega
          have hm : max (sizeJ v) (sizeM (kv2 :: t2)) ≤
              (charsJ v).length + (sepM (kv2 :: t2)).length + 2 :=
            max_le (by omega) (by omega)
          omega

/-- `JSON.parse` inverts `JSON.stringify`. -/
theorem parse_stringify (j : Json) : Json.parse (Json.stringify j) = some j := by
  have hb : sizeJ j ≤ (charsJ j).length + 1 := (size_le_len (sizeOf j)).1 j le_rfl
  have h := (parse_rt ((charsJ j).length + 1)).1 j [] hb (by exact True.intro)
  rw [List.append_nil] at h
  show (match parseValue ((charsJ j).length + 1) (charsJ j) with
    | some (j', []) => some j'
    | _ => none) = some j
  rw [h]

/-- C6: the commitment encoding used by `prove` — serialize the commitment,
serialize that string again and strip the outer quotes — composed with the
channel's loss of one level of escaping and the `JSON.parse` performed by
`test`, reconstructs exactly the original commitment. -/
theorem commitment_roundtrip (pv : ProofValue) :
    (channelDecode (encodeDetailValue (Json.stringify pv.toJson))).bind Json.parse =
      some pv.toJson := by
  have henc : encodeDetailValue (Json.stringify pv.toJson) =
      String.mk (escapeChars (charsJ pv.toJson)) := by
    show String.mk ((('"' ::
        (escapeChars (Json.stringify pv.toJson).data ++ ['"'])).drop 1).dropLast) = _
    rw [List.drop_one, List.tail_cons, List.dropLast_concat]
    rfl
  have hchan : channelDecode (String.mk (escapeChars (charsJ pv.toJson))) =
      some (Json.stringify pv.toJson) := by
    show (unescapeChars (escapeChars (charsJ pv.toJson))).map String.mk = _
    rw [unescapeChars_escapeChars, Option.map_some']
    rfl
  rw [henc, hchan, Option.some_bind]
  exact parse_stringify _

end MeldIroha
